import Mathlib

/-! Shallow embedding of the semi2k trusted-first-party Beaver provider
(`libspu/mpc/semi2k/beaver/beaver_tfp.cc`).  Ring values are natural numbers
reduced modulo `2 ^ w` where `w` is the bit width of the chosen field.
Pseudo-random generation is modelled by an explicit deterministic environment
function of seed and counter, and the one-time seed gather is modelled as a
function from rank to the seed that rank sampled.  The `TrustedParty::adjust*`
routines, the PRG expansion and the ring primitives are declared elsewhere in
the original repository; they are modelled here from the specification and
marked as such in their doc comments. -/

/-- Ring field types supported by the provider (32, 64 and 128 bit rings). -/
inductive FieldType where
  | FM32
  | FM64
  | FM128
deriving DecidableEq

/-- Bit width of a field. -/
def FieldType.width : FieldType → Nat
  | .FM32 => 32
  | .FM64 => 64
  | .FM128 => 128

/-- Deterministic randomness environment.  `prg seed ctr` is the raw generator
word at counter position `ctr` under `seed` (reduced modulo the ring when
used); `rbit ctr` is the trusted party's random-bit source consumed by
RandBit (reduced modulo 2).  Modelled from the spec: the share generator is a
pure function of seed and counter with no hidden state. -/
structure Env where
  prg : Nat → Nat → Nat
  rbit : Nat → Nat

/-- Dense one-dimensional ring array of length `n`. -/
abbrev Arr (n : Nat) := Fin n → Nat

/-- Dense row-major matrix with `m` rows and `k` columns. -/
abbrev Mat (m k : Nat) := Fin m → Fin k → Nat

/-- Modular subtraction `a - b` in the ring of size `M`. -/
def submod (M a b : Nat) : Nat := (a + (M - b % M)) % M

/-- Elementwise ring addition, the effect of `ring_add_`. -/
def ring_add (w : Nat) {n : Nat} (x y : Arr n) : Arr n :=
  fun i => (x i + y i) % 2 ^ w

/-- Elementwise ring xor, the effect of `ring_xor_`. -/
def ring_xor (w : Nat) {n : Nat} (x y : Arr n) : Arr n :=
  fun i => (x i ^^^ y i) % 2 ^ w

/-- Elementwise ring product, used to state the Mul relation. -/
def ring_mul (w : Nat) {n : Nat} (x y : Arr n) : Arr n :=
  fun i => (x i * y i) % 2 ^ w

/-- Matrix ring addition. -/
def mat_add (w : Nat) {m k : Nat} (x y : Mat m k) : Mat m k :=
  fun i j => (x i j + y i j) % 2 ^ w

/-- Ring matrix product of an `(m,k)` matrix with a `(k,n)` matrix. -/
def ring_mmul (w : Nat) {m k n : Nat} (A : Mat m k) (B : Mat k n) : Mat m n :=
  fun i j => (∑ l : Fin k, A i l * B l j) % 2 ^ w

/-- Descriptor of one generator draw (`PrgArrayDesc`): field, element count,
seed, and the counter value at which the draw starts. -/
structure PrgArrayDesc where
  field : FieldType
  size : Nat
  prgSeed : Nat
  prgCounter : Nat
deriving DecidableEq

/-- Contents of one generator draw (`prgCreateArray`): element `i` of a draw
of `n` ring elements starting at counter `ctr` under `seed`. -/
def prgGen (prg : Nat → Nat → Nat) (w seed ctr n : Nat) : Arr n :=
  fun i => prg seed (ctr + i.val) % 2 ^ w

/-- Row-major matrix view of a generator draw of `rows * cols` ring
elements. -/
def prgGenMat (prg : Nat → Nat → Nat) (w seed ctr rows cols : Nat) :
    Mat rows cols :=
  fun i j => prg seed (ctr + (i.val * cols + j.val)) % 2 ^ w

/-- Modelled from the spec: the trusted party (`TrustedParty`, declared outside
these sources) regenerates every rank's draw at a given counter from the seed
roster and sums them modulo the ring. -/
def reconDesc (prg : Nat → Nat → Nat) (seeds : List Nat) (w ctr n : Nat) :
    Arr n :=
  fun i => ((seeds.map fun sd => prg sd (ctr + i.val) % 2 ^ w).sum) % 2 ^ w

/-- Modelled from the spec: matrix form of `reconDesc`, used by Dot. -/
def reconDescMat (prg : Nat → Nat → Nat) (seeds : List Nat)
    (w ctr rows cols : Nat) : Mat rows cols :=
  fun i j =>
    ((seeds.map fun sd => prg sd (ctr + (i.val * cols + j.val)) % 2 ^ w).sum)
      % 2 ^ w

/-- Signed two's-complement reading of a ring value of width `w`. -/
def toSigned (w x : Nat) : Int :=
  if x < 2 ^ (w - 1) then (x : Int) else (x : Int) - 2 ^ w

/-- Arithmetic right shift of a ring value by `bits`, result back in the
ring. -/
def arshift (w bits x : Nat) : Nat :=
  ((Int.fdiv (toSigned w x) (2 ^ bits)) % ((2 ^ w : Nat) : Int)).toNat

/-- Modelled from the spec: `TrustedParty::adjustMul` (not part of these
sources) derives the additive correction ideal minus actual, where ideal is
the elementwise ring product of the reconstructed A and B and actual is the
reconstructed C. -/
def adjustMul (prg : Nat → Nat → Nat) (seeds : List Nat) (w n cA cB cC : Nat) :
    Arr n :=
  fun i =>
    submod (2 ^ w)
      (reconDesc prg seeds w cA n i * reconDesc prg seeds w cB n i)
      (reconDesc prg seeds w cC n i)

/-- Modelled from the spec: `TrustedParty::adjustDot` (not part of these
sources); ideal is the ring matrix product of the reconstructed A and B. -/
def adjustDot (prg : Nat → Nat → Nat) (seeds : List Nat)
    (w m n k cA cB cC : Nat) : Mat m n :=
  fun i j =>
    submod (2 ^ w)
      (∑ l : Fin k,
        reconDescMat prg seeds w cA m k i l * reconDescMat prg seeds w cB k n l j)
      (reconDescMat prg seeds w cC m n i j)

/-- Modelled from the spec: `TrustedParty::adjustAnd` (not part of these
sources); the boolean correction is ideal xor actual with ideal the bitwise
conjunction of the reconstructed A and B. -/
def adjustAnd (prg : Nat → Nat → Nat) (seeds : List Nat) (w n cA cB cC : Nat) :
    Arr n :=
  fun i =>
    (reconDesc prg seeds w cA n i &&& reconDesc prg seeds w cB n i) ^^^
      reconDesc prg seeds w cC n i

/-- Modelled from the spec: `TrustedParty::adjustTrunc` (not part of these
sources); ideal is the arithmetic right shift of the reconstructed A. -/
def adjustTrunc (prg : Nat → Nat → Nat) (seeds : List Nat)
    (w n cA cB bits : Nat) : Arr n :=
  fun i =>
    submod (2 ^ w) (arshift w bits (reconDesc prg seeds w cA n i))
      (reconDesc prg seeds w cB n i)

/-- Modelled from the spec: `TrustedParty::adjustTruncPr` (not part of these
sources) returns two independent additive corrections, one for the truncated
value and one for the boundary indicator bit; the exact rounding policy is an
external contract, modelled here as the shift of the reconstructed R and its
top bit. -/
def adjustTruncPr (prg : Nat → Nat → Nat) (seeds : List Nat)
    (w n cR cRc cRb bits : Nat) : Arr n × Arr n :=
  (fun i =>
      submod (2 ^ w) (arshift w bits (reconDesc prg seeds w cR n i))
        (reconDesc prg seeds w cRc n i),
   fun i =>
      submod (2 ^ w) (reconDesc prg seeds w cR n i / 2 ^ (w - 1))
        (reconDesc prg seeds w cRb n i))

/-- Modelled from the spec: `TrustedParty::adjustRandBit` (not part of these
sources); ideal is a uniformly random single bit embedded in the ring, drawn
from the environment's bit source. -/
def adjustRandBit (env : Env) (seeds : List Nat) (w n cA : Nat) : Arr n :=
  fun i =>
    submod (2 ^ w) (env.rbit (cA + i.val) % 2)
      (reconDesc env.prg seeds w cA n i)

/-- Modelled from the spec: `TrustedParty::adjustEqz` (not part of these
sources); the boolean correction is ideal xor actual with ideal the zero test
of the reconstructed A. -/
def adjustEqz (prg : Nat → Nat → Nat) (seeds : List Nat) (w n cA cB : Nat) :
    Arr n :=
  fun i =>
    (if reconDesc prg seeds w cA n i = 0 then 1 else 0) ^^^
      reconDesc prg seeds w cB n i

/-- Modelled from the spec: `TrustedParty::adjustPerm` (not part of these
sources); ideal is the permutation vector applied to the reconstructed A. -/
def adjustPerm (prg : Nat → Nat → Nat) (seeds : List Nat) (w n cA cB : Nat)
    (pv : Fin n → Fin n) : Arr n :=
  fun i =>
    submod (2 ^ w) (reconDesc prg seeds w cA n (pv i))
      (reconDesc prg seeds w cB n i)

/-- State of one party's `BeaverTfpUnsafe` session: its rank and world size
and channel identity (from `lctx_`), its own PRG seed `seed_`, the counter
`counter_`, and the seed roster `seeds_` (non-empty only on rank 0). -/
structure BeaverTfpUnsafe where
  rank : Nat
  worldSize : Nat
  ctx : Nat
  seed : Nat
  counter : Nat
  seeds : List Nat
deriving DecidableEq

/-- Construction (source lines 29 to 44): the party samples its seed
(`allSeed rank`; the gather of everyone's sampled seed is modelled as the
function `allSeed` from rank to sampled value), starts its counter at zero,
and on rank 0 collects the roster of every rank's seed in rank order; every
other rank keeps no roster. -/
def BeaverTfpUnsafe.init (rank world ctx : Nat) (allSeed : Nat → Nat) :
    BeaverTfpUnsafe :=
  { rank := rank, worldSize := world, ctx := ctx, seed := allSeed rank,
    counter := 0,
    seeds := if rank = 0 then (List.range world).map allSeed else [] }

/-- Mul (source lines 46 to 60): draw a, b, c; on rank 0 add the Mul
correction into c.  The produced descriptors are returned alongside the
shares for bookkeeping. -/
def BeaverTfpUnsafe.Mul (env : Env) (s : BeaverTfpUnsafe) (f : FieldType)
    (n : Nat) :
    ((Arr n × Arr n × Arr n) × List PrgArrayDesc) × BeaverTfpUnsafe :=
  let a := prgGen env.prg f.width s.seed s.counter n
  let b := prgGen env.prg f.width s.seed (s.counter + n) n
  let c0 := prgGen env.prg f.width s.seed (s.counter + n + n) n
  let c :=
    if s.rank = 0 then
      ring_add f.width c0
        (adjustMul env.prg s.seeds f.width n s.counter (s.counter + n)
          (s.counter + n + n))
    else c0
  (((a, b, c),
    [⟨f, n, s.seed, s.counter⟩, ⟨f, n, s.seed, s.counter + n⟩,
     ⟨f, n, s.seed, s.counter + n + n⟩]),
   { s with counter := s.counter + n + n + n })

/-- Dot (source lines 62 to 76): draw a of shape (m,k), b of shape (k,n), c
of shape (m,n); on rank 0 add the Dot correction into c. -/
def BeaverTfpUnsafe.Dot (env : Env) (s : BeaverTfpUnsafe) (f : FieldType)
    (m n k : Nat) :
    ((Mat m k × Mat k n × Mat m n) × List PrgArrayDesc) × BeaverTfpUnsafe :=
  let a := prgGenMat env.prg f.width s.seed s.counter m k
  let b := prgGenMat env.prg f.width s.seed (s.counter + m * k) k n
  let c0 := prgGenMat env.prg f.width s.seed (s.counter + m * k + k * n) m n
  let c :=
    if s.rank = 0 then
      mat_add f.width c0
        (adjustDot env.prg s.seeds f.width m n k s.counter
          (s.counter + m * k) (s.counter + m * k + k * n))
    else c0
  (((a, b, c),
    [⟨f, m * k, s.seed, s.counter⟩, ⟨f, k * n, s.seed, s.counter + m * k⟩,
     ⟨f, m * n, s.seed, s.counter + m * k + k * n⟩]),
   { s with counter := s.counter + m * k + k * n + m * n })

/-- And (source lines 78 to 92): draw a, b, c; on rank 0 xor the And
correction into c. -/
def BeaverTfpUnsafe.And (env : Env) (s : BeaverTfpUnsafe) (f : FieldType)
    (n : Nat) :
    ((Arr n × Arr n × Arr n) × List PrgArrayDesc) × BeaverTfpUnsafe :=
  let a := prgGen env.prg f.width s.seed s.counter n
  let b := prgGen env.prg f.width s.seed (s.counter + n) n
  let c0 := prgGen env.prg f.width s.seed (s.counter + n + n) n
  let c :=
    if s.rank = 0 then
      ring_xor f.width c0
        (adjustAnd env.prg s.seeds f.width n s.counter (s.counter + n)
          (s.counter + n + n))
    else c0
  (((a, b, c),
    [⟨f, n, s.seed, s.counter⟩, ⟨f, n, s.seed, s.counter + n⟩,
     ⟨f, n, s.seed, s.counter + n + n⟩]),
   { s with counter := s.counter + n + n + n })

/-- Trunc (source lines 94 to 104): draw a, b; on rank 0 add the truncation
correction into b. -/
def BeaverTfpUnsafe.Trunc (env : Env) (s : BeaverTfpUnsafe) (f : FieldType)
    (n bits : Nat) :
    ((Arr n × Arr n) × List PrgArrayDesc) × BeaverTfpUnsafe :=
  let a := prgGen env.prg f.width s.seed s.counter n
  let b0 := prgGen env.prg f.width s.seed (s.counter + n) n
  let b :=
    if s.rank = 0 then
      ring_add f.width b0
        (adjustTrunc env.prg s.seeds f.width n s.counter (s.counter + n) bits)
    else b0
  (((a, b), [⟨f, n, s.seed, s.counter⟩, ⟨f, n, s.seed, s.counter + n⟩]),
   { s with counter := s.counter + n + n })

/-- TruncPr (source lines 106 to 122): draw r, rc, rb; on rank 0 add the two
independent corrections into rc and rb. -/
def BeaverTfpUnsafe.TruncPr (env : Env) (s : BeaverTfpUnsafe) (f : FieldType)
    (n bits : Nat) :
    ((Arr n × Arr n × Arr n) × List PrgArrayDesc) × BeaverTfpUnsafe :=
  let r := prgGen env.prg f.width s.seed s.counter n
  let rc0 := prgGen env.prg f.width s.seed (s.counter + n) n
  let rb0 := prgGen env.prg f.width s.seed (s.counter + n + n) n
  let adj := adjustTruncPr env.prg s.seeds f.width n s.counter (s.counter + n)
    (s.counter + n + n) bits
  let rc := if s.rank = 0 then ring_add f.width rc0 adj.1 else rc0
  let rb := if s.rank = 0 then ring_add f.width rb0 adj.2 else rb0
  (((r, rc, rb),
    [⟨f, n, s.seed, s.counter⟩, ⟨f, n, s.seed, s.counter + n⟩,
     ⟨f, n, s.seed, s.counter + n + n⟩]),
   { s with counter := s.counter + n + n + n })

/-- RandBit (source lines 124 to 134): draw a; on rank 0 add the random-bit
correction into a with ring addition. -/
def BeaverTfpUnsafe.RandBit (env : Env) (s : BeaverTfpUnsafe) (f : FieldType)
    (n : Nat) : (Arr n × List PrgArrayDesc) × BeaverTfpUnsafe :=
  let a0 := prgGen env.prg f.width s.seed s.counter n
  let a :=
    if s.rank = 0 then
      ring_add f.width a0 (adjustRandBit env s.seeds f.width n s.counter)
    else a0
  ((a, [⟨f, n, s.seed, s.counter⟩]), { s with counter := s.counter + n })

/-- Result of one party's PermPair call: the two shares plus flags recording
whether this party sent or received the point-to-point permutation message. -/
structure PermOut (n : Nat) where
  a : Arr n
  b : Arr n
  sent : Bool
  recvd : Bool

/-- PermPair (source lines 136 to 161): draw a, b.  Rank 0 applies the
permutation correction to b, using the received plaintext vector when the
owning rank is not 0 (blocking receive, modelled by the `incoming` argument)
and its own argument vector otherwise.  A non-zero rank that owns the
permutation sends its vector to rank 0; every other party neither sends nor
receives. -/
def BeaverTfpUnsafe.PermPair (env : Env) (s : BeaverTfpUnsafe) (f : FieldType)
    (n : Nat) (perm_rank : Nat) (perm_vec : Fin n → Fin n)
    (incoming : Fin n → Fin n) :
    (PermOut n × List PrgArrayDesc) × BeaverTfpUnsafe :=
  let a := prgGen env.prg f.width s.seed s.counter n
  let b := prgGen env.prg f.width s.seed (s.counter + n) n
  let out : PermOut n :=
    if s.rank = 0 then
      if perm_rank ≠ 0 then
        { a := a,
          b := ring_add f.width b
            (adjustPerm env.prg s.seeds f.width n s.counter (s.counter + n)
              incoming),
          sent := false, recvd := true }
      else
        { a := a,
          b := ring_add f.width b
            (adjustPerm env.prg s.seeds f.width n s.counter (s.counter + n)
              perm_vec),
          sent := false, recvd := false }
    else if perm_rank = s.rank then
      { a := a, b := b, sent := true, recvd := false }
    else
      { a := a, b := b, sent := false, recvd := false }
  ((out, [⟨f, n, s.seed, s.counter⟩, ⟨f, n, s.seed, s.counter + n⟩]),
   { s with counter := s.counter + n + n })

/-- Eqz (source lines 167 to 177): draw a, b; on rank 0 xor the zero-test
correction into b. -/
def BeaverTfpUnsafe.Eqz (env : Env) (s : BeaverTfpUnsafe) (f : FieldType)
    (n : Nat) : ((Arr n × Arr n) × List PrgArrayDesc) × BeaverTfpUnsafe :=
  let a := prgGen env.prg f.width s.seed s.counter n
  let b0 := prgGen env.prg f.width s.seed (s.counter + n) n
  let b :=
    if s.rank = 0 then
      ring_xor f.width b0
        (adjustEqz env.prg s.seeds f.width n s.counter (s.counter + n))
    else b0
  (((a, b), [⟨f, n, s.seed, s.counter⟩, ⟨f, n, s.seed, s.counter + n⟩]),
   { s with counter := s.counter + n + n })

/-- Spawn (source lines 163 to 165): construct a brand-new session on a
derived communication sub-context with freshly sampled seeds; the parent
session is returned unchanged alongside the child. -/
def BeaverTfpUnsafe.Spawn (s : BeaverTfpUnsafe) (freshSeed : Nat → Nat) :
    BeaverTfpUnsafe × BeaverTfpUnsafe :=
  (BeaverTfpUnsafe.init s.rank s.worldSize (s.ctx + 1) freshSeed, s)

/-- Operation requests of the public session contract, with the parameters
that determine generator consumption. -/
inductive Op where
  | mul (f : FieldType) (n : Nat)
  | dot (f : FieldType) (m n k : Nat)
  | and (f : FieldType) (n : Nat)
  | trunc (f : FieldType) (n bits : Nat)
  | truncPr (f : FieldType) (n bits : Nat)
  | randBit (f : FieldType) (n : Nat)
  | permPair (f : FieldType) (n pr : Nat)
  | eqz (f : FieldType) (n : Nat)

/-- One operation call dispatched to the session, keeping the produced
descriptors and the updated session; share payloads are dropped. -/
def runOp (env : Env) (s : BeaverTfpUnsafe) :
    Op → List PrgArrayDesc × BeaverTfpUnsafe
  | .mul f n =>
    ((BeaverTfpUnsafe.Mul env s f n).1.2, (BeaverTfpUnsafe.Mul env s f n).2)
  | .dot f m n k =>
    ((BeaverTfpUnsafe.Dot env s f m n k).1.2,
     (BeaverTfpUnsafe.Dot env s f m n k).2)
  | .and f n =>
    ((BeaverTfpUnsafe.And env s f n).1.2, (BeaverTfpUnsafe.And env s f n).2)
  | .trunc f n bits =>
    ((BeaverTfpUnsafe.Trunc env s f n bits).1.2,
     (BeaverTfpUnsafe.Trunc env s f n bits).2)
  | .truncPr f n bits =>
    ((BeaverTfpUnsafe.TruncPr env s f n bits).1.2,
     (BeaverTfpUnsafe.TruncPr env s f n bits).2)
  | .randBit f n =>
    ((BeaverTfpUnsafe.RandBit env s f n).1.2,
     (BeaverTfpUnsafe.RandBit env s f n).2)
  | .permPair f n pr =>
    ((BeaverTfpUnsafe.PermPair env s f n pr (fun i => i) (fun i => i)).1.2,
     (BeaverTfpUnsafe.PermPair env s f n pr (fun i => i) (fun i => i)).2)
  | .eqz f n =>
    ((BeaverTfpUnsafe.Eqz env s f n).1.2, (BeaverTfpUnsafe.Eqz env s f n).2)

/-- Element counts of the generator draws an operation performs, in call
order. -/
def opSizes : Op → List Nat
  | .mul _ n => [n, n, n]
  | .dot _ m n k => [m * k, k * n, m * n]
  | .and _ n => [n, n, n]
  | .trunc _ n _ => [n, n]
  | .truncPr _ n _ => [n, n, n]
  | .randBit _ n => [n]
  | .permPair _ n _ => [n, n]
  | .eqz _ n => [n, n]

/-- Total generator consumption of one operation. -/
def opTotal (op : Op) : Nat := (opSizes op).sum

/-- Left-to-right intervals of given sizes starting at `c`, as pairs of start
and size. -/
def intervals (c : Nat) : List Nat → List (Nat × Nat)
  | [] => []
  | n :: ns => (c, n) :: intervals (c + n) ns

/-- Run a sequence of operations on one session, collecting the descriptors
of every generator draw in order. -/
def runSeq (env : Env) (s : BeaverTfpUnsafe) :
    List Op → List PrgArrayDesc × BeaverTfpUnsafe
  | [] => ([], s)
  | op :: ops =>
    ((runOp env s op).1 ++ (runSeq env (runOp env s op).2 ops).1,
     (runSeq env (runOp env s op).2 ops).2)

/-- Counter value of the session before and after each operation of a
sequence. -/
def counterTrace (env : Env) (s : BeaverTfpUnsafe) : List Op → List Nat
  | [] => [s.counter]
  | op :: ops => s.counter :: counterTrace env (runOp env s op).2 ops

/-- Reconstruction of a shared array: the sum of the parties' shares modulo
the ring. -/
def recon (w world : Nat) {n : Nat} (sh : Nat → Arr n) : Arr n :=
  fun i => (∑ r ∈ Finset.range world, sh r i) % 2 ^ w

/-- Reconstruction of a shared matrix. -/
def recon2 (w world : Nat) {m k : Nat} (sh : Nat → Mat m k) : Mat m k :=
  fun i j => (∑ r ∈ Finset.range world, sh r i j) % 2 ^ w

/-- Party `r`'s session in a world of `world` parties whose sampled seeds are
given by `allSeed`, after every party has advanced its counter in lockstep to
`ctr`. -/
def partyAt (world : Nat) (allSeed : Nat → Nat) (r ctr : Nat) :
    BeaverTfpUnsafe :=
  { BeaverTfpUnsafe.init r world 0 allSeed with counter := ctr }

/-- Party `r`'s result of one global PermPair call on a reliable channel: the
owning rank's vector `pv` is what rank 0 receives when the owner is not rank
0. -/
def permPartyAt (env : Env) (f : FieldType) (world : Nat)
    (allSeed : Nat → Nat) (ctr n : Nat) (pr : Nat) (pv : Fin n → Fin n)
    (r : Nat) : PermOut n :=
  (BeaverTfpUnsafe.PermPair env (partyAt world allSeed r ctr) f n pr pv pv).1.1

/-- Claim variant of RandBit written from the spec sentence that the RandBit
correction is combined in the boolean domain: identical to the source-derived
`BeaverTfpUnsafe.RandBit` except that the rank-0 correction is folded in with
`ring_xor` instead of `ring_add`.  Used only for comparison against the
source-derived definition. -/
def RandBitXorClaim (env : Env) (s : BeaverTfpUnsafe) (f : FieldType)
    (n : Nat) : Arr n :=
  let a0 := prgGen env.prg f.width s.seed s.counter n
  if s.rank = 0 then
    ring_xor f.width a0 (adjustRandBit env s.seeds f.width n s.counter)
  else a0

/-- Concrete environment used for the RandBit combination counterexample. -/
def cexEnv : Env := { prg := fun _ _ => 1, rbit := fun _ => 0 }

/-- Concrete one-party rank-0 session used for the RandBit combination
counterexample. -/
def cexSess : BeaverTfpUnsafe := BeaverTfpUnsafe.init 0 1 0 (fun _ => 1)

/-- Concatenated generator draw sizes of a sequence of operations. -/
def opSizesSeq : List Op → List Nat
  | [] => []
  | op :: ops => opSizes op ++ opSizesSeq ops

theorem two_pow_pos_nat (w : Nat) : 0 < 2 ^ w := pow_pos (by norm_num) w

theorem adjust_cancel (M x rest I s : Nat) (hM : 0 < M)
    (hs : s % M = (x + rest) % M) :
    ((x + submod M I s) % M + rest) % M = I % M := by
  unfold submod
  rw [Nat.add_mod_mod, Nat.mod_add_mod]
  have ht : s % M < M := Nat.mod_lt _ hM
  have h1 : x + (I + (M - s % M)) + rest = I + (M - s % M) + (x + rest) := by
    ring
  rw [h1, Nat.add_mod (I + (M - s % M)) (x + rest), ← hs, Nat.mod_add_mod,
    Nat.add_assoc, Nat.sub_add_cancel (Nat.le_of_lt ht), Nat.add_mod_right]

theorem list_range_map_sum (f : Nat → Nat) (N : Nat) :
    ((List.range N).map f).sum = ∑ r ∈ Finset.range N, f r := by
  induction N with
  | zero => simp
  | succ n ih =>
    rw [List.range_succ, List.map_append, List.sum_append,
      Finset.sum_range_succ, ih]
    simp

theorem reconDesc_roster (prg : Nat → Nat → Nat) (allSeed : Nat → Nat)
    (N w ctr n : Nat) (i : Fin n) :
    reconDesc prg ((List.range N).map allSeed) w ctr n i
      = (∑ r ∈ Finset.range N, prg (allSeed r) (ctr + i.val) % 2 ^ w)
          % 2 ^ w := by
  unfold reconDesc
  rw [List.map_map, list_range_map_sum]
  rfl

theorem reconDescMat_roster (prg : Nat → Nat → Nat) (allSeed : Nat → Nat)
    (N w ctr rows cols : Nat) (i : Fin rows) (j : Fin cols) :
    reconDescMat prg ((List.range N).map allSeed) w ctr rows cols i j
      = (∑ r ∈ Finset.range N,
          prg (allSeed r) (ctr + (i.val * cols + j.val)) % 2 ^ w) % 2 ^ w := by
  unfold reconDescMat
  rw [List.map_map, list_range_map_sum]
  rfl

theorem recon_if_adjust (M : Nat) (hM : 0 < M) (N1 : Nat) (g : Nat → Nat)
    (I : Nat) :
    (∑ r ∈ Finset.range (N1 + 1),
        if r = 0 then
          (g 0 + submod M I ((∑ t ∈ Finset.range (N1 + 1), g t) % M)) % M
        else g r) % M = I % M := by
  rw [Finset.sum_range_succ' (fun r =>
        if r = 0 then
          (g 0 + submod M I ((∑ t ∈ Finset.range (N1 + 1), g t) % M)) % M
        else g r) N1]
  have h2 : ∀ r ∈ Finset.range N1,
      (if r + 1 = 0 then
          (g 0 + submod M I ((∑ t ∈ Finset.range (N1 + 1), g t) % M)) % M
        else g (r + 1)) = g (r + 1) := by
    intro r _
    simp
  rw [Finset.sum_congr rfl h2]
  rw [if_pos rfl]
  rw [Nat.add_comm (∑ r ∈ Finset.range N1, g (r + 1))
    ((g 0 + submod M I ((∑ t ∈ Finset.range (N1 + 1), g t) % M)) % M)]
  have hs : ((∑ t ∈ Finset.range (N1 + 1), g t) % M) % M
      = (g 0 + ∑ r ∈ Finset.range N1, g (r + 1)) % M := by
    rw [Nat.mod_mod_of_dvd _ (dvd_refl M), Finset.sum_range_succ' g N1,
      Nat.add_comm (∑ t ∈ Finset.range N1, g (t + 1)) (g 0)]
  exact adjust_cancel M (g 0) (∑ r ∈ Finset.range N1, g (r + 1)) I
    ((∑ t ∈ Finset.range (N1 + 1), g t) % M) hM hs

theorem recon_corrected (env : Env) (w N1 : Nat) (allSeed : Nat → Nat)
    {n : Nat} (cC : Nat) (I : Arr n) (shares : Nat → Arr n)
    (hshape : ∀ r, shares r =
      if r = 0 then
        ring_add w (prgGen env.prg w (allSeed 0) cC n)
          (fun i => submod (2 ^ w) (I i)
            (reconDesc env.prg ((List.range (N1 + 1)).map allSeed) w cC n i))
      else prgGen env.prg w (allSeed r) cC n) :
    recon w (N1 + 1) shares = fun i => I i % 2 ^ w := by
  funext i
  have hM : 0 < 2 ^ w := two_pow_pos_nat w
  show (∑ r ∈ Finset.range (N1 + 1), shares r i) % 2 ^ w = I i % 2 ^ w
  have hterm : ∀ r ∈ Finset.range (N1 + 1), shares r i =
      (if r = 0 then
        (env.prg (allSeed 0) (cC + i.val) % 2 ^ w +
          submod (2 ^ w) (I i)
            ((∑ t ∈ Finset.range (N1 + 1),
              env.prg (allSeed t) (cC + i.val) % 2 ^ w) % 2 ^ w)) % 2 ^ w
      else env.prg (allSeed r) (cC + i.val) % 2 ^ w) := by
    intro r _
    rw [hshape r]
    by_cases h : r = 0
    · subst h
      rw [if_pos rfl, if_pos rfl]
      show (prgGen env.prg w (allSeed 0) cC n i +
        submod (2 ^ w) (I i)
          (reconDesc env.prg ((List.range (N1 + 1)).map allSeed) w cC n i))
          % 2 ^ w = _
      rw [reconDesc_roster]
      rfl
    · rw [if_neg h, if_neg h]
      rfl
  rw [Finset.sum_congr rfl hterm]
  exact recon_if_adjust (2 ^ w) hM N1
    (fun t => env.prg (allSeed t) (cC + i.val) % 2 ^ w) (I i)

theorem recon2_corrected (env : Env) (w N1 : Nat) (allSeed : Nat → Nat)
    {rows cols : Nat} (cC : Nat) (I : Mat rows cols)
    (shares : Nat → Mat rows cols)
    (hshape : ∀ r, shares r =
      if r = 0 then
        mat_add w (prgGenMat env.prg w (allSeed 0) cC rows cols)
          (fun i j => submod (2 ^ w) (I i j)
            (reconDescMat env.prg ((List.range (N1 + 1)).map allSeed) w cC
              rows cols i j))
      else prgGenMat env.prg w (allSeed r) cC rows cols) :
    recon2 w (N1 + 1) shares = fun i j => I i j % 2 ^ w := by
  funext i j
  have hM : 0 < 2 ^ w := two_pow_pos_nat w
  show (∑ r ∈ Finset.range (N1 + 1), shares r i j) % 2 ^ w = I i j % 2 ^ w
  have hterm : ∀ r ∈ Finset.range (N1 + 1), shares r i j =
      (if r = 0 then
        (env.prg (allSeed 0) (cC + (i.val * cols + j.val)) % 2 ^ w +
          submod (2 ^ w) (I i j)
            ((∑ t ∈ Finset.range (N1 + 1),
              env.prg (allSeed t) (cC + (i.val * cols + j.val)) % 2 ^ w)
                % 2 ^ w)) % 2 ^ w
      else env.prg (allSeed r) (cC + (i.val * cols + j.val)) % 2 ^ w) := by
    intro r _
    rw [hshape r]
    by_cases h : r = 0
    · subst h
      rw [if_pos rfl, if_pos rfl]
      show (prgGenMat env.prg w (allSeed 0) cC rows cols i j +
        submod (2 ^ w) (I i j)
          (reconDescMat env.prg ((List.range (N1 + 1)).map allSeed) w cC
            rows cols i j)) % 2 ^ w = _
      rw [reconDescMat_roster]
      rfl
    · rw [if_neg h, if_neg h]
      rfl
  rw [Finset.sum_congr rfl hterm]
  exact recon_if_adjust (2 ^ w) hM N1
    (fun t => env.prg (allSeed t) (cC + (i.val * cols + j.val)) % 2 ^ w)
    (I i j)

/-- C1: for every field, element count, seed roster, and common lockstep
counter position, summing the returned Mul C shares of all parties modulo the
ring equals the elementwise ring product of the summed A shares and the
summed B shares; only rank 0's C share carries the trusted party's
adjustment. -/
theorem mul_reconstruction_correct (env : Env) (f : FieldType) (n : Nat)
    (N : Nat) (allSeed : Nat → Nat) (ctr : Nat) (hN : 0 < N) :
    recon f.width N
        (fun r =>
          (BeaverTfpUnsafe.Mul env (partyAt N allSeed r ctr) f n).1.1.2.2)
      = ring_mul f.width
          (recon f.width N (fun r =>
            (BeaverTfpUnsafe.Mul env (partyAt N allSeed r ctr) f n).1.1.1))
          (recon f.width N (fun r =>
            (BeaverTfpUnsafe.Mul env (partyAt N allSeed r ctr) f n).1.1.2.1)) := by
  obtain ⟨N1, rfl⟩ : ∃ N1, N = N1 + 1 := ⟨N - 1, by omega⟩
  have hC := recon_corrected env f.width N1 allSeed (ctr + n + n)
    (fun i =>
      reconDesc env.prg ((List.range (N1 + 1)).map allSeed) f.width ctr n i *
        reconDesc env.prg ((List.range (N1 + 1)).map allSeed) f.width
          (ctr + n) n i)
    (fun r =>
      (BeaverTfpUnsafe.Mul env (partyAt (N1 + 1) allSeed r ctr) f n).1.1.2.2)
    (by
      intro r
      by_cases h : r = 0
      · subst h
        rfl
      · simp only [BeaverTfpUnsafe.Mul, partyAt, BeaverTfpUnsafe.init]
        rw [if_neg h, if_neg h])
  rw [hC]
  funext i
  have hA : ∀ r,
      (BeaverTfpUnsafe.Mul env (partyAt (N1 + 1) allSeed r ctr) f n).1.1.1 i
        = env.prg (allSeed r) (ctr + i.val) % 2 ^ f.width := fun r => rfl
  have hB : ∀ r,
      (BeaverTfpUnsafe.Mul env (partyAt (N1 + 1) allSeed r ctr) f n).1.1.2.1 i
        = env.prg (allSeed r) (ctr + n + i.val) % 2 ^ f.width := fun r => rfl
  show (reconDesc env.prg ((List.range (N1 + 1)).map allSeed) f.width ctr n i *
      reconDesc env.prg ((List.range (N1 + 1)).map allSeed) f.width
        (ctr + n) n i) % 2 ^ f.width = _
  rw [reconDesc_roster, reconDesc_roster]
  simp only [ring_mul, recon, hA, hB]

/-- Witness for C1 at a concrete two-party instance. -/
theorem mul_reconstruction_correct_witness :
    0 < 2 ∧
      recon FieldType.FM32.width 2
          (fun r =>
            (BeaverTfpUnsafe.Mul ⟨fun sd c => sd + 2 * c, fun _ => 0⟩
              (partyAt 2 (fun t => t + 5) r 3) FieldType.FM32 2).1.1.2.2)
        = ring_mul FieldType.FM32.width
            (recon FieldType.FM32.width 2 (fun r =>
              (BeaverTfpUnsafe.Mul ⟨fun sd c => sd + 2 * c, fun _ => 0⟩
                (partyAt 2 (fun t => t + 5) r 3) FieldType.FM32 2).1.1.1))
            (recon FieldType.FM32.width 2 (fun r =>
              (BeaverTfpUnsafe.Mul ⟨fun sd c => sd + 2 * c, fun _ => 0⟩
                (partyAt 2 (fun t => t + 5) r 3) FieldType.FM32 2).1.1.2.1)) :=
  ⟨by norm_num,
   mul_reconstruction_correct ⟨fun sd c => sd + 2 * c, fun _ => 0⟩
     FieldType.FM32 2 2 (fun t => t + 5) 3 (by norm_num)⟩

/-- C2: for all dimensions m, n, k (one or larger, square or not), the Dot
shares have shapes (m,k), (k,n) and (m,n) by type, and summing the returned C
shares of all parties modulo the ring equals the ring matrix product of the
summed A shares and the summed B shares. -/
theorem dot_reconstruction_correct (env : Env) (f : FieldType) (m n k : Nat)
    (N : Nat) (allSeed : Nat → Nat) (ctr : Nat) (hN : 0 < N) :
    recon2 f.width N
        (fun r =>
          (BeaverTfpUnsafe.Dot env (partyAt N allSeed r ctr) f m n k).1.1.2.2)
      = ring_mmul f.width
          (recon2 f.width N (fun r =>
            (BeaverTfpUnsafe.Dot env (partyAt N allSeed r ctr) f m n k).1.1.1))
          (recon2 f.width N (fun r =>
            (BeaverTfpUnsafe.Dot env (partyAt N allSeed r ctr) f m n k).1.1.2.1)) := by
  obtain ⟨N1, rfl⟩ : ∃ N1, N = N1 + 1 := ⟨N - 1, by omega⟩
  have hC := recon2_corrected env f.width N1 allSeed (ctr + m * k + k * n)
    (fun i j =>
      ∑ l : Fin k,
        reconDescMat env.prg ((List.range (N1 + 1)).map allSeed) f.width ctr
            m k i l *
          reconDescMat env.prg ((List.range (N1 + 1)).map allSeed) f.width
            (ctr + m * k) k n l j)
    (fun r =>
      (BeaverTfpUnsafe.Dot env (partyAt (N1 + 1) allSeed r ctr) f m n k).1.1.2.2)
    (by
      intro r
      by_cases h : r = 0
      · subst h
        rfl
      · simp only [BeaverTfpUnsafe.Dot, partyAt, BeaverTfpUnsafe.init]
        rw [if_neg h, if_neg h])
  rw [hC]
  funext i j
  have hA : ∀ r (l : Fin k),
      (BeaverTfpUnsafe.Dot env (partyAt (N1 + 1) allSeed r ctr) f m n k).1.1.1
          i l
        = env.prg (allSeed r) (ctr + (i.val * k + l.val)) % 2 ^ f.width :=
    fun r l => rfl
  have hB : ∀ r (l : Fin k),
      (BeaverTfpUnsafe.Dot env (partyAt (N1 + 1) allSeed r ctr) f m n k).1.1.2.1
          l j
        = env.prg (allSeed r) (ctr + m * k + (l.val * n + j.val)) % 2 ^ f.width :=
    fun r l => rfl
  show (∑ l : Fin k,
      reconDescMat env.prg ((List.range (N1 + 1)).map allSeed) f.width ctr
          m k i l *
        reconDescMat env.prg ((List.range (N1 + 1)).map allSeed) f.width
          (ctr + m * k) k n l j) % 2 ^ f.width = _
  simp only [ring_mmul, recon2, hA, hB, reconDescMat_roster]

/-- Witness for C2 at a concrete two-party non-square instance with
dimensions 2, 1, 3. -/
theorem dot_reconstruction_correct_witness :
    0 < 2 ∧
      recon2 FieldType.FM64.width 2
          (fun r =>
            (BeaverTfpUnsafe.Dot ⟨fun sd c => sd * 3 + c, fun _ => 1⟩
              (partyAt 2 (fun t => t + 9) r 4) FieldType.FM64 2 1 3).1.1.2.2)
        = ring_mmul FieldType.FM64.width
            (recon2 FieldType.FM64.width 2 (fun r =>
              (BeaverTfpUnsafe.Dot ⟨fun sd c => sd * 3 + c, fun _ => 1⟩
                (partyAt 2 (fun t => t + 9) r 4) FieldType.FM64 2 1 3).1.1.1))
            (recon2 FieldType.FM64.width 2 (fun r =>
              (BeaverTfpUnsafe.Dot ⟨fun sd c => sd * 3 + c, fun _ => 1⟩
                (partyAt 2 (fun t => t + 9) r 4) FieldType.FM64 2 1 3).1.1.2.1)) :=
  ⟨by norm_num,
   dot_reconstruction_correct ⟨fun sd c => sd * 3 + c, fun _ => 1⟩
     FieldType.FM64 2 1 3 2 (fun t => t + 9) 4 (by norm_num)⟩

theorem arshift_lt (w bits x : Nat) : arshift w bits x < 2 ^ w := by
  unfold arshift
  have hM : (0 : Int) < ((2 ^ w : Nat) : Int) := by
    exact_mod_cast two_pow_pos_nat w
  have h1 := Int.emod_nonneg (Int.fdiv (toSigned w x) (2 ^ bits))
    (by omega : ((2 ^ w : Nat) : Int) ≠ 0)
  have h2 := Int.emod_lt_of_pos (Int.fdiv (toSigned w x) (2 ^ bits)) hM
  omega

/-- C9: for every field, element count, bit count, seed roster and common
lockstep counter position, summing the returned Trunc B shares of all parties
modulo the ring equals the arithmetic right shift by `bits` of the summed A
shares; the shift acts on the reconstructed sum, and the correction enters by
ring addition through rank 0's B share only. -/
theorem trunc_reconstruction_correct (env : Env) (f : FieldType)
    (n bits : Nat) (N : Nat) (allSeed : Nat → Nat) (ctr : Nat) (hN : 0 < N) :
    recon f.width N (fun r =>
        (BeaverTfpUnsafe.Trunc env (partyAt N allSeed r ctr) f n bits).1.1.2)
      = fun i =>
          arshift f.width bits
            (recon f.width N (fun r =>
              (BeaverTfpUnsafe.Trunc env (partyAt N allSeed r ctr) f n
                bits).1.1.1) i) := by
  obtain ⟨N1, rfl⟩ : ∃ N1, N = N1 + 1 := ⟨N - 1, by omega⟩
  have hC := recon_corrected env f.width N1 allSeed (ctr + n)
    (fun i => arshift f.width bits
      (reconDesc env.prg ((List.range (N1 + 1)).map allSeed) f.width ctr n i))
    (fun r =>
      (BeaverTfpUnsafe.Trunc env (partyAt (N1 + 1) allSeed r ctr) f n
        bits).1.1.2)
    (by
      intro r
      by_cases h : r = 0
      · subst h
        rfl
      · simp only [BeaverTfpUnsafe.Trunc, partyAt, BeaverTfpUnsafe.init]
        rw [if_neg h, if_neg h])
  rw [hC]
  funext i
  have hA : ∀ r,
      (BeaverTfpUnsafe.Trunc env (partyAt (N1 + 1) allSeed r ctr) f n
          bits).1.1.1 i
        = env.prg (allSeed r) (ctr + i.val) % 2 ^ f.width := fun r => rfl
  show arshift f.width bits
      (reconDesc env.prg ((List.range (N1 + 1)).map allSeed) f.width ctr n i)
        % 2 ^ f.width = _
  rw [Nat.mod_eq_of_lt (arshift_lt _ _ _), reconDesc_roster]
  simp only [recon, hA]

/-- Witness for C9 at a concrete three-party instance with two shift bits. -/
theorem trunc_reconstruction_correct_witness :
    0 < 3 ∧
      recon FieldType.FM32.width 3 (fun r =>
          (BeaverTfpUnsafe.Trunc ⟨fun sd c => sd * 7 + c, fun _ => 0⟩
            (partyAt 3 (fun t => t * t + 2) r 0) FieldType.FM32 2 2).1.1.2)
        = fun i =>
            arshift FieldType.FM32.width 2
              (recon FieldType.FM32.width 3 (fun r =>
                (BeaverTfpUnsafe.Trunc ⟨fun sd c => sd * 7 + c, fun _ => 0⟩
                  (partyAt 3 (fun t => t * t + 2) r 0) FieldType.FM32 2
                  2).1.1.1) i) :=
  ⟨by norm_num,
   trunc_reconstruction_correct ⟨fun sd c => sd * 7 + c, fun _ => 0⟩
     FieldType.FM32 2 2 3 (fun t => t * t + 2) 0 (by norm_num)⟩

theorem permPartyAt_a (env : Env) (f : FieldType) (N : Nat)
    (allSeed : Nat → Nat) (ctr n pr : Nat) (pv : Fin n → Fin n) (r : Nat) :
    (permPartyAt env f N allSeed ctr n pr pv r).a
      = prgGen env.prg f.width (allSeed r) ctr n := by
  simp only [permPartyAt, BeaverTfpUnsafe.PermPair, partyAt,
    BeaverTfpUnsafe.init]
  split
  · split <;> rfl
  · split <;> rfl

theorem permPartyAt_b (env : Env) (f : FieldType) (N : Nat)
    (allSeed : Nat → Nat) (ctr n pr : Nat) (pv : Fin n → Fin n) (r : Nat) :
    (permPartyAt env f N allSeed ctr n pr pv r).b
      = if r = 0 then
          ring_add f.width (prgGen env.prg f.width (allSeed 0) (ctr + n) n)
            (adjustPerm env.prg ((List.range N).map allSeed) f.width n ctr
              (ctr + n) pv)
        else prgGen env.prg f.width (allSeed r) (ctr + n) n := by
  by_cases h : r = 0
  · subst h
    by_cases hq : pr = 0
    · subst hq
      rfl
    · simp [permPartyAt, BeaverTfpUnsafe.PermPair, partyAt,
        BeaverTfpUnsafe.init, hq]
  · by_cases hq : pr = r
    · simp [permPartyAt, BeaverTfpUnsafe.PermPair, partyAt,
        BeaverTfpUnsafe.init, h, hq]
    · simp [permPartyAt, BeaverTfpUnsafe.PermPair, partyAt,
        BeaverTfpUnsafe.init, h, hq]

/-- C6: summing the returned PermPair B shares of all parties modulo the ring
equals the permutation vector applied to the summed A shares, both when the
permutation owner is rank 0 (vector used directly, no message) and when the
owner is another rank (the owner's vector reaching rank 0 over the
point-to-point channel before the correction is computed). -/
theorem permPair_reconstruction_correct (env : Env) (f : FieldType) (n : Nat)
    (N : Nat) (allSeed : Nat → Nat) (ctr : Nat) (pr : Nat)
    (pv : Fin n → Fin n) (hN : 0 < N) (hpr : pr < N) :
    recon f.width N (fun r => (permPartyAt env f N allSeed ctr n pr pv r).b)
      = fun i =>
          recon f.width N
            (fun r => (permPartyAt env f N allSeed ctr n pr pv r).a)
            (pv i) := by
  obtain ⟨N1, rfl⟩ : ∃ N1, N = N1 + 1 := ⟨N - 1, by omega⟩
  have hC := recon_corrected env f.width N1 allSeed (ctr + n)
    (fun i =>
      reconDesc env.prg ((List.range (N1 + 1)).map allSeed) f.width ctr n
        (pv i))
    (fun r => (permPartyAt env f (N1 + 1) allSeed ctr n pr pv r).b)
    (by
      intro r
      show (permPartyAt env f (N1 + 1) allSeed ctr n pr pv r).b = _
      rw [permPartyAt_b]
      rfl)
  rw [hC]
  funext i
  show reconDesc env.prg ((List.range (N1 + 1)).map allSeed) f.width ctr n
      (pv i) % 2 ^ f.width = _
  rw [reconDesc_roster, Nat.mod_mod_of_dvd _ (dvd_refl _)]
  simp only [recon, permPartyAt_a, prgGen]

/-- Witness for C6 at a concrete three-party instance whose permutation owner
is rank 2, with the swap permutation on two elements. -/
theorem permPair_reconstruction_correct_witness :
    0 < 3 ∧ 2 < 3 ∧
      recon FieldType.FM32.width 3
          (fun r =>
            (permPartyAt ⟨fun sd c => sd + 5 * c, fun _ => 0⟩ FieldType.FM32 3
              (fun t => 2 * t + 1) 6 2 2 (fun i => i.rev) r).b)
        = fun i =>
            recon FieldType.FM32.width 3
              (fun r =>
                (permPartyAt ⟨fun sd c => sd + 5 * c, fun _ => 0⟩
                  FieldType.FM32 3 (fun t => 2 * t + 1) 6 2 2
                  (fun i => i.rev) r).a)
              (i.rev) :=
  ⟨by norm_num, by norm_num,
   permPair_reconstruction_correct ⟨fun sd c => sd + 5 * c, fun _ => 0⟩
     FieldType.FM32 2 3 (fun t => 2 * t + 1) 6 2 (fun i => i.rev)
     (by norm_num) (by norm_num)⟩

/-- Counterexample for C3: at a concrete one-party instance, the share that
RandBit returns on rank 0 differs from the share obtained by folding the very
same correction in with XOR, so the RandBit correction is not combined in the
boolean domain as the claim states. -/
theorem randBit_xor_combination_counterexample :
    (BeaverTfpUnsafe.RandBit cexEnv cexSess FieldType.FM32 1).1.1
      ≠ RandBitXorClaim cexEnv cexSess FieldType.FM32 1 := by
  decide

/-- C3 amended: on rank 0, the Eqz correction is combined into the B share
with XOR, while the RandBit correction is combined into the A share with ring
addition (as the spec's own operation table records), not with XOR. -/
theorem eqz_xor_randBit_add_correction (env : Env) (s : BeaverTfpUnsafe)
    (f : FieldType) (n : Nat) (h : s.rank = 0) :
    (BeaverTfpUnsafe.Eqz env s f n).1.1.2
        = ring_xor f.width (prgGen env.prg f.width s.seed (s.counter + n) n)
            (adjustEqz env.prg s.seeds f.width n s.counter (s.counter + n))
      ∧ (BeaverTfpUnsafe.RandBit env s f n).1.1
        = ring_add f.width (prgGen env.prg f.width s.seed s.counter n)
            (adjustRandBit env s.seeds f.width n s.counter) := by
  constructor
  · simp only [BeaverTfpUnsafe.Eqz]
    rw [if_pos h]
  · simp only [BeaverTfpUnsafe.RandBit]
    rw [if_pos h]

/-- Witness for the amended C3 at the concrete rank-0 session. -/
theorem eqz_xor_randBit_add_correction_witness :
    cexSess.rank = 0 ∧
      ((BeaverTfpUnsafe.Eqz cexEnv cexSess FieldType.FM32 1).1.1.2
          = ring_xor FieldType.FM32.width
              (prgGen cexEnv.prg FieldType.FM32.width cexSess.seed
                (cexSess.counter + 1) 1)
              (adjustEqz cexEnv.prg cexSess.seeds FieldType.FM32.width 1
                cexSess.counter (cexSess.counter + 1))
        ∧ (BeaverTfpUnsafe.RandBit cexEnv cexSess FieldType.FM32 1).1.1
          = ring_add FieldType.FM32.width
              (prgGen cexEnv.prg FieldType.FM32.width cexSess.seed
                cexSess.counter 1)
              (adjustRandBit cexEnv cexSess.seeds FieldType.FM32.width 1
                cexSess.counter)) :=
  ⟨rfl, eqz_xor_randBit_add_correction cexEnv cexSess FieldType.FM32 1 rfl⟩

/-- C5: for every operation, a party whose rank is not 0 returns exactly the
arrays drawn from the deterministic share generator at its successive counter
positions, with no correction applied to any of them. -/
theorem nonzero_rank_returns_raw_draws (env : Env) (s : BeaverTfpUnsafe)
    (f : FieldType) (n m k bits pr : Nat) (pv inc : Fin n → Fin n)
    (h : s.rank ≠ 0) :
    (BeaverTfpUnsafe.Mul env s f n).1.1
        = (prgGen env.prg f.width s.seed s.counter n,
           prgGen env.prg f.width s.seed (s.counter + n) n,
           prgGen env.prg f.width s.seed (s.counter + n + n) n)
      ∧ (BeaverTfpUnsafe.Dot env s f m n k).1.1
        = (prgGenMat env.prg f.width s.seed s.counter m k,
           prgGenMat env.prg f.width s.seed (s.counter + m * k) k n,
           prgGenMat env.prg f.width s.seed (s.counter + m * k + k * n) m n)
      ∧ (BeaverTfpUnsafe.And env s f n).1.1
        = (prgGen env.prg f.width s.seed s.counter n,
           prgGen env.prg f.width s.seed (s.counter + n) n,
           prgGen env.prg f.width s.seed (s.counter + n + n) n)
      ∧ (BeaverTfpUnsafe.Trunc env s f n bits).1.1
        = (prgGen env.prg f.width s.seed s.counter n,
           prgGen env.prg f.width s.seed (s.counter + n) n)
      ∧ (BeaverTfpUnsafe.TruncPr env s f n bits).1.1
        = (prgGen env.prg f.width s.seed s.counter n,
           prgGen env.prg f.width s.seed (s.counter + n) n,
           prgGen env.prg f.width s.seed (s.counter + n + n) n)
      ∧ (BeaverTfpUnsafe.RandBit env s f n).1.1
        = prgGen env.prg f.width s.seed s.counter n
      ∧ ((BeaverTfpUnsafe.PermPair env s f n pr pv inc).1.1.a
            = prgGen env.prg f.width s.seed s.counter n
          ∧ (BeaverTfpUnsafe.PermPair env s f n pr pv inc).1.1.b
            = prgGen env.prg f.width s.seed (s.counter + n) n)
      ∧ (BeaverTfpUnsafe.Eqz env s f n).1.1
        = (prgGen env.prg f.width s.seed s.counter n,
           prgGen env.prg f.width s.seed (s.counter + n) n) := by
  refine ⟨?_, ?_, ?_, ?_, ?_, ?_, ⟨?_, ?_⟩, ?_⟩
  · simp [BeaverTfpUnsafe.Mul, h]
  · simp [BeaverTfpUnsafe.Dot, h]
  · simp [BeaverTfpUnsafe.And, h]
  · simp [BeaverTfpUnsafe.Trunc, h]
  · simp [BeaverTfpUnsafe.TruncPr, h]
  · simp [BeaverTfpUnsafe.RandBit, h]
  · by_cases hq : pr = s.rank <;> simp [BeaverTfpUnsafe.PermPair, h, hq]
  · by_cases hq : pr = s.rank <;> simp [BeaverTfpUnsafe.PermPair, h, hq]
  · simp [BeaverTfpUnsafe.Eqz, h]

/-- Witness for C5: a concrete rank-1 two-party session returns raw Mul
draws. -/
theorem nonzero_rank_returns_raw_draws_witness :
    (BeaverTfpUnsafe.init 1 2 0 (fun t => t + 3)).rank ≠ 0 ∧
      (BeaverTfpUnsafe.Mul (Env.mk (fun sd c => sd * c) (fun _ => 0))
          (BeaverTfpUnsafe.init 1 2 0 (fun t => t + 3)) FieldType.FM64 2).1.1
        = (prgGen (fun sd c => sd * c) FieldType.FM64.width 4 0 2,
           prgGen (fun sd c => sd * c) FieldType.FM64.width 4 2 2,
           prgGen (fun sd c => sd * c) FieldType.FM64.width 4 4 2) :=
  ⟨by decide,
   (nonzero_rank_returns_raw_draws (Env.mk (fun sd c => sd * c) (fun _ => 0))
     (BeaverTfpUnsafe.init 1 2 0 (fun t => t + 3)) FieldType.FM64 2 1 1 0 1
     (fun i => i) (fun i => i) (by decide)).1⟩

theorem runOp_seeds (env : Env) (s : BeaverTfpUnsafe) (op : Op) :
    (runOp env s op).2.seeds = s.seeds := by
  cases op <;> rfl

theorem runOp_seed (env : Env) (s : BeaverTfpUnsafe) (op : Op) :
    (runOp env s op).2.seed = s.seed := by
  cases op <;> rfl

theorem runSeq_seeds (env : Env) : ∀ (ops : List Op) (s : BeaverTfpUnsafe),
    (runSeq env s ops).2.seeds = s.seeds := by
  intro ops
  induction ops with
  | nil => intro s; rfl
  | cons op t ih =>
    intro s
    simp only [runSeq]
    rw [ih, runOp_seeds]

/-- C7: a session whose rank is not 0 holds an empty roster at construction;
rank 0's roster is built at construction as exactly the gathered seeds in
rank order, one per rank; and neither a single operation nor any operation
sequence ever modifies the roster. -/
theorem seed_roster_confinement (rank N ctx : Nat) (allSeed : Nat → Nat)
    (env : Env) (s : BeaverTfpUnsafe) (op : Op) (ops : List Op)
    (h : rank ≠ 0) :
    (BeaverTfpUnsafe.init rank N ctx allSeed).seeds = []
      ∧ (BeaverTfpUnsafe.init 0 N ctx allSeed).seeds
          = (List.range N).map allSeed
      ∧ ((BeaverTfpUnsafe.init 0 N ctx allSeed).seeds).length = N
      ∧ (runOp env s op).2.seeds = s.seeds
      ∧ (runSeq env s ops).2.seeds = s.seeds := by
  refine ⟨?_, rfl, ?_, runOp_seeds env s op, runSeq_seeds env ops s⟩
  · simp [BeaverTfpUnsafe.init, h]
  · simp [BeaverTfpUnsafe.init]

/-- Witness for C7 at a concrete rank-2 construction and a concrete
operation sequence. -/
theorem seed_roster_confinement_witness :
    (2 : Nat) ≠ 0 ∧
      ((BeaverTfpUnsafe.init 2 3 0 (fun t => 5 * t)).seeds = []
        ∧ (BeaverTfpUnsafe.init 0 3 0 (fun t => 5 * t)).seeds
            = (List.range 3).map (fun t => 5 * t)
        ∧ ((BeaverTfpUnsafe.init 0 3 0 (fun t => 5 * t)).seeds).length = 3
        ∧ (runOp (Env.mk (fun sd c => sd + c) (fun _ => 1)) cexSess
            (Op.mul FieldType.FM32 2)).2.seeds = cexSess.seeds
        ∧ (runSeq (Env.mk (fun sd c => sd + c) (fun _ => 1)) cexSess
            [Op.eqz FieldType.FM64 1, Op.randBit FieldType.FM32 2]).2.seeds
            = cexSess.seeds) :=
  ⟨by decide,
   seed_roster_confinement 2 3 0 (fun t => 5 * t)
     (Env.mk (fun sd c => sd + c) (fun _ => 1)) cexSess
     (Op.mul FieldType.FM32 2) [Op.eqz FieldType.FM64 1, Op.randBit FieldType.FM32 2]
     (by decide)⟩

theorem runOp_draws (env : Env) (s : BeaverTfpUnsafe) (op : Op) :
    (runOp env s op).1.map (fun d => (d.prgCounter, d.size))
      = intervals s.counter (opSizes op) := by
  cases op <;> rfl

theorem runOp_counter (env : Env) (s : BeaverTfpUnsafe) (op : Op) :
    (runOp env s op).2.counter = s.counter + opTotal op := by
  cases op <;> simp [runOp, opTotal, opSizes, BeaverTfpUnsafe.Mul,
    BeaverTfpUnsafe.Dot, BeaverTfpUnsafe.And, BeaverTfpUnsafe.Trunc,
    BeaverTfpUnsafe.TruncPr, BeaverTfpUnsafe.RandBit,
    BeaverTfpUnsafe.PermPair, BeaverTfpUnsafe.Eqz] <;> omega

theorem runOp_desc_seed (env : Env) (s : BeaverTfpUnsafe) (op : Op) :
    ∀ d ∈ (runOp env s op).1, d.prgSeed = s.seed := by
  cases op <;> intro d hd <;>
    simp [runOp, BeaverTfpUnsafe.Mul, BeaverTfpUnsafe.Dot,
      BeaverTfpUnsafe.And, BeaverTfpUnsafe.Trunc, BeaverTfpUnsafe.TruncPr,
      BeaverTfpUnsafe.RandBit, BeaverTfpUnsafe.PermPair,
      BeaverTfpUnsafe.Eqz] at hd <;>
    first
      | (rcases hd with h | h | h <;> subst h <;> rfl)
      | (rcases hd with h | h <;> subst h <;> rfl)
      | (subst hd; rfl)

theorem intervals_le (sizes : List Nat) :
    ∀ c, ∀ p ∈ intervals c sizes, c ≤ p.1 := by
  induction sizes with
  | nil =>
    intro c p hp
    simp [intervals] at hp
  | cons a t ih =>
    intro c p hp
    simp only [intervals, List.mem_cons] at hp
    rcases hp with h | h
    · subst h
      exact Nat.le_refl c
    · exact Nat.le_trans (Nat.le_add_right c a) (ih (c + a) p h)

theorem intervals_pairwise (sizes : List Nat) :
    ∀ c, List.Pairwise (fun p q : Nat × Nat => p.1 + p.2 ≤ q.1)
      (intervals c sizes) := by
  induction sizes with
  | nil =>
    intro c
    simp [intervals]
  | cons a t ih =>
    intro c
    simp only [intervals]
    refine List.Pairwise.cons ?_ (ih (c + a))
    intro q hq
    exact intervals_le t (c + a) q hq

theorem intervals_append (xs ys : List Nat) :
    ∀ c, intervals c (xs ++ ys)
      = intervals c xs ++ intervals (c + xs.sum) ys := by
  induction xs with
  | nil =>
    intro c
    simp [intervals]
  | cons a t ih =>
    intro c
    show (c, a) :: intervals (c + a) (t ++ ys)
      = ((c, a) :: intervals (c + a) t) ++ intervals (c + (a :: t).sum) ys
    rw [ih (c + a), List.sum_cons, ← Nat.add_assoc]
    rfl

theorem runSeq_draws (env : Env) : ∀ (ops : List Op) (s : BeaverTfpUnsafe),
    (runSeq env s ops).1.map (fun d => (d.prgCounter, d.size))
      = intervals s.counter (opSizesSeq ops) := by
  intro ops
  induction ops with
  | nil =>
    intro s
    rfl
  | cons op t ih =>
    intro s
    simp only [runSeq, opSizesSeq, List.map_append]
    rw [runOp_draws, ih, runOp_counter, intervals_append]
    rfl

theorem counterTrace_head (env : Env) (s : BeaverTfpUnsafe) (ops : List Op) :
    ∃ l, counterTrace env s ops = s.counter :: l := by
  cases ops <;> exact ⟨_, rfl⟩

theorem counterTrace_chain (env : Env) (ops : List Op) :
    ∀ (s : BeaverTfpUnsafe), (∀ op ∈ ops, 0 < opTotal op) →
      List.Chain' (· < ·) (counterTrace env s ops) := by
  induction ops with
  | nil =>
    intro s _
    exact List.chain'_singleton _
  | cons op t ih =>
    intro s h
    obtain ⟨l, hl⟩ := counterTrace_head env (runOp env s op).2 t
    simp only [counterTrace]
    rw [hl]
    refine List.chain'_cons.mpr ⟨?_, ?_⟩
    · rw [runOp_counter]
      have h0 := h op (List.mem_cons_self op t)
      omega
    · rw [← hl]
      exact ih (runOp env s op).2 fun o ho => h o (List.mem_cons_of_mem _ ho)

theorem runSeq_desc_seed (env : Env) : ∀ (ops : List Op) (s : BeaverTfpUnsafe),
    ∀ d ∈ (runSeq env s ops).1, d.prgSeed = s.seed := by
  intro ops
  induction ops with
  | nil =>
    intro s d hd
    simp [runSeq] at hd
  | cons op t ih =>
    intro s d hd
    simp only [runSeq, List.mem_append] at hd
    rcases hd with h | h
    · exact runOp_desc_seed env s op d h
    · rw [← runOp_seed env s op]
      exact ih (runOp env s op).2 d h

/-- C4: along any operation sequence on one session, the session counter
strictly increases from call to call (every operation consuming a positive
number of ring elements; empty shapes are programming errors), and the
counter ranges of all generator draws of the sequence are pairwise disjoint;
every draw is made under the session's single seed. -/
theorem counter_strict_increase_no_draw_overlap (env : Env)
    (s : BeaverTfpUnsafe) (ops : List Op)
    (hpos : ∀ op ∈ ops, 0 < opTotal op) :
    List.Chain' (· < ·) (counterTrace env s ops)
      ∧ List.Pairwise
          (fun d e : PrgArrayDesc => d.prgCounter + d.size ≤ e.prgCounter)
          (runSeq env s ops).1
      ∧ ∀ d ∈ (runSeq env s ops).1, d.prgSeed = s.seed := by
  refine ⟨counterTrace_chain env ops s hpos, ?_, runSeq_desc_seed env ops s⟩
  have h := intervals_pairwise (opSizesSeq ops) s.counter
  rw [← runSeq_draws env ops s] at h
  rw [List.pairwise_map] at h
  exact h

/-- Witness for C4 on a concrete three-operation sequence. -/
theorem counter_strict_increase_no_draw_overlap_witness :
    (∀ op ∈ [Op.mul FieldType.FM32 1, Op.trunc FieldType.FM64 2 1,
        Op.randBit FieldType.FM32 3], 0 < opTotal op)
      ∧ (List.Chain' (· < ·)
            (counterTrace (Env.mk (fun sd c => sd + c) (fun _ => 0))
              (BeaverTfpUnsafe.init 0 2 0 (fun t => t + 1))
              [Op.mul FieldType.FM32 1, Op.trunc FieldType.FM64 2 1,
               Op.randBit FieldType.FM32 3])
          ∧ List.Pairwise
              (fun d e : PrgArrayDesc =>
                d.prgCounter + d.size ≤ e.prgCounter)
              (runSeq (Env.mk (fun sd c => sd + c) (fun _ => 0))
                (BeaverTfpUnsafe.init 0 2 0 (fun t => t + 1))
                [Op.mul FieldType.FM32 1, Op.trunc FieldType.FM64 2 1,
                 Op.randBit FieldType.FM32 3]).1
          ∧ ∀ d ∈ (runSeq (Env.mk (fun sd c => sd + c) (fun _ => 0))
                (BeaverTfpUnsafe.init 0 2 0 (fun t => t + 1))
                [Op.mul FieldType.FM32 1, Op.trunc FieldType.FM64 2 1,
                 Op.randBit FieldType.FM32 3]).1,
              d.prgSeed = (BeaverTfpUnsafe.init 0 2 0 (fun t => t + 1)).seed) :=
  ⟨by decide,
   counter_strict_increase_no_draw_overlap
     (Env.mk (fun sd c => sd + c) (fun _ => 0))
     (BeaverTfpUnsafe.init 0 2 0 (fun t => t + 1))
     [Op.mul FieldType.FM32 1, Op.trunc FieldType.FM64 2 1,
      Op.randBit FieldType.FM32 3] (by decide)⟩

/-- C8: Spawn builds the child session by running the constructor over a
derived communication sub-context with freshly sampled seeds: the child
starts with counter zero, holds its own freshly sampled seed, gets a fresh
roster from the new seed exchange (non-empty on rank 0 only) and a derived
channel identity, while the parent session is handed back unchanged, so
parent and child share no state. -/
theorem spawn_fresh_independent_session (s : BeaverTfpUnsafe)
    (freshSeed : Nat → Nat) :
    (s.Spawn freshSeed).1.counter = 0
      ∧ (s.Spawn freshSeed).1.seed = freshSeed s.rank
      ∧ (s.Spawn freshSeed).1.ctx = s.ctx + 1
      ∧ (s.Spawn freshSeed).1.seeds
          = (if s.rank = 0 then (List.range s.worldSize).map freshSeed
             else [])
      ∧ (s.Spawn freshSeed).2 = s :=
  ⟨rfl, rfl, rfl, rfl, rfl⟩

/-- C10: in PermPair, a party that is neither rank 0 nor the permutation
owner sends nothing and receives nothing, returning only its two generator
draws; and when the owner is rank 0 no party at all sends or receives. -/
theorem permPair_bystander_silent (env : Env) (s : BeaverTfpUnsafe)
    (f : FieldType) (n : Nat) (pr : Nat) (pv inc : Fin n → Fin n)
    (h : (s.rank ≠ 0 ∧ s.rank ≠ pr) ∨ pr = 0) :
    (BeaverTfpUnsafe.PermPair env s f n pr pv inc).1.1.sent = false
      ∧ (BeaverTfpUnsafe.PermPair env s f n pr pv inc).1.1.recvd = false
      ∧ (s.rank ≠ 0 →
          (BeaverTfpUnsafe.PermPair env s f n pr pv inc).1.1.a
              = prgGen env.prg f.width s.seed s.counter n
            ∧ (BeaverTfpUnsafe.PermPair env s f n pr pv inc).1.1.b
              = prgGen env.prg f.width s.seed (s.counter + n) n) := by
  by_cases h0 : s.rank = 0
  · have hpr0 : pr = 0 := by
      rcases h with ⟨hne, _⟩ | hp
      · exact absurd h0 hne
      · exact hp
    subst hpr0
    refine ⟨?_, ?_, ?_⟩
    · simp [BeaverTfpUnsafe.PermPair, h0]
    · simp [BeaverTfpUnsafe.PermPair, h0]
    · intro hc
      exact absurd h0 hc
  · have hne : ¬pr = s.rank := by
      rcases h with ⟨_, hne⟩ | hp
      · exact fun he => hne he.symm
      · intro he
        exact h0 (by omega)
    refine ⟨?_, ?_, ?_⟩
    · simp [BeaverTfpUnsafe.PermPair, h0, hne]
    · simp [BeaverTfpUnsafe.PermPair, h0, hne]
    · intro _
      constructor
      · simp [BeaverTfpUnsafe.PermPair, h0, hne]
      · simp [BeaverTfpUnsafe.PermPair, h0, hne]

/-- Witness for C10: a concrete rank-1 bystander in a three-party session
whose permutation owner is rank 2. -/
theorem permPair_bystander_silent_witness :
    (((BeaverTfpUnsafe.init 1 3 0 (fun t => t + 7)).rank ≠ 0
        ∧ (BeaverTfpUnsafe.init 1 3 0 (fun t => t + 7)).rank ≠ 2)
      ∨ (2 : Nat) = 0) ∧
      ((BeaverTfpUnsafe.PermPair (Env.mk (fun sd c => sd * c + 1) (fun _ => 0))
          (BeaverTfpUnsafe.init 1 3 0 (fun t => t + 7)) FieldType.FM32 2 2
          (fun i => i) (fun i => i)).1.1.sent = false
        ∧ (BeaverTfpUnsafe.PermPair (Env.mk (fun sd c => sd * c + 1) (fun _ => 0))
            (BeaverTfpUnsafe.init 1 3 0 (fun t => t + 7)) FieldType.FM32 2 2
            (fun i => i) (fun i => i)).1.1.recvd = false
        ∧ ((BeaverTfpUnsafe.init 1 3 0 (fun t => t + 7)).rank ≠ 0 →
            (BeaverTfpUnsafe.PermPair (Env.mk (fun sd c => sd * c + 1) (fun _ => 0))
                (BeaverTfpUnsafe.init 1 3 0 (fun t => t + 7)) FieldType.FM32 2
                2 (fun i => i) (fun i => i)).1.1.a
                = prgGen (fun sd c => sd * c + 1) FieldType.FM32.width
                    (BeaverTfpUnsafe.init 1 3 0 (fun t => t + 7)).seed
                    (BeaverTfpUnsafe.init 1 3 0 (fun t => t + 7)).counter 2
              ∧ (BeaverTfpUnsafe.PermPair (Env.mk (fun sd c => sd * c + 1) (fun _ => 0))
                  (BeaverTfpUnsafe.init 1 3 0 (fun t => t + 7)) FieldType.FM32
                  2 2 (fun i => i) (fun i => i)).1.1.b
                = prgGen (fun sd c => sd * c + 1) FieldType.FM32.width
                    (BeaverTfpUnsafe.init 1 3 0 (fun t => t + 7)).seed
                    ((BeaverTfpUnsafe.init 1 3 0 (fun t => t + 7)).counter + 2)
                    2)) :=
  ⟨by decide,
   permPair_bystander_silent (Env.mk (fun sd c => sd * c + 1) (fun _ => 0))
     (BeaverTfpUnsafe.init 1 3 0 (fun t => t + 7)) FieldType.FM32 2 2
     (fun i => i) (fun i => i) (by decide)⟩
